import Mathlib

/-!
Verification development for the TrenchyBet points listener.

The source is a single polling script: it scans a prediction-market
contract for BetPlaced and WinningsClaimed logs in block windows,
converts amounts from 6-decimal USDC fixed point, awards points
(10 per dollar bet, a 5x bonus on the original bet amount on a win),
and records every award in an append-only points ledger next to a
per-wallet running total.

The persistent store is embedded as explicit lists of rows; the two
tables follow the schema the Supabase calls address: users
(wallet_address primary key, total_points) and points_ledger
(id serial primary key, wallet_address, points_earned, source,
bet_id, market_id, metadata).  JavaScript Number arithmetic on USDC
amounts is embedded as exact rational arithmetic, and BigInt values
as naturals.  Timestamps are not tracked.  Transient storage failures
are embedded as explicit fault flags, one set per handled log, so
that the error paths of the code are part of the model.
-/

namespace TrenchyBet

/-- JavaScript toLowerCase: lower-case every character. -/
def toLowerCase (s : String) : String :=
  ⟨s.data.map Char.toLower⟩

/-- JavaScript `x || null` on an optional numeric column value:
zero is falsy and becomes null. -/
def orNull : Option Nat → Option Nat
  | some 0 => none
  | o => o

/-- The metadata JSON object attached to a ledger row.  The handlers
only ever store marketId, betAmount, payout and txHash; betId is
read by awardPoints but never supplied. -/
structure Metadata where
  marketId : Option Nat
  betAmount : Option ℚ
  payout : Option ℚ
  txHash : Option String
  betId : Option Nat
deriving DecidableEq

/-- A row of the points_ledger table. -/
structure LedgerEntry where
  id : Nat
  wallet_address : String
  points_earned : ℤ
  source : String
  bet_id : Option Nat
  market_id : Option Nat
  metadata : Metadata
deriving DecidableEq

/-- A row of the users table (last_bet_timestamp not tracked). -/
structure UserRow where
  wallet_address : String
  total_points : ℤ
deriving DecidableEq

/-- The persistent store: both tables plus the next serial ledger id. -/
structure DB where
  users : List UserRow
  ledger : List LedgerEntry
  nextId : Nat
deriving DecidableEq

def emptyDB : DB := ⟨[], [], 1⟩

/-- A storage error as surfaced by the Supabase client;
code 23505 is the Postgres unique-violation code. -/
structure PgError where
  code : String
deriving DecidableEq

/-- Transient failures injected into the storage operations of one
handled log; noFaults is normal operation. -/
structure Faults where
  userSelectFault : Bool
  userInsertFault : Bool
  ledgerInsertFault : Bool
  userReadFault : Bool
  userUpdateFault : Bool
  betLookupFault : Bool
deriving DecidableEq

def noFaults : Faults := ⟨false, false, false, false, false, false⟩

/-- Select a row by wallet address from a list of users rows. -/
def findRow (us : List UserRow) (a : String) : Option UserRow :=
  us.find? (fun u => u.wallet_address == a)

/-- Select a users row by wallet address. -/
def findUser (db : DB) (a : String) : Option UserRow :=
  findRow db.users a

/-- The total carried by a row list for one wallet, zero when absent. -/
def rowTotal (us : List UserRow) (w : String) : ℤ :=
  match findRow us w with
  | some u => u.total_points
  | none => 0

/-- The wallet total as read through findUser, zero when absent. -/
def totalPoints (db : DB) (w : String) : ℤ :=
  rowTotal db.users w

/-- Sum of points_earned over the ledger rows of one wallet. -/
def walletSum (L : List LedgerEntry) (w : String) : ℤ :=
  ((L.filter (fun e => e.wallet_address == w)).map (fun e => e.points_earned)).sum

def ledgerSum (db : DB) (w : String) : ℤ :=
  walletSum db.ledger w

/-- users select single, step 1 of ensureUserExists; a transient
fault makes the read come back empty. -/
def usersSelect (f : Faults) (db : DB) (a : String) : Option UserRow :=
  if f.userSelectFault then none else findUser db a

/-- users insert of a zero-balance row; the primary key on
wallet_address yields error code 23505 on a duplicate. -/
def usersInsert (f : Faults) (db : DB) (a : String) : DB × Except PgError Unit :=
  if f.userInsertFault then (db, Except.error ⟨"storage"⟩)
  else if (findUser db a).isSome then (db, Except.error ⟨"23505"⟩)
  else (⟨db.users ++ [⟨a, 0⟩], db.ledger, db.nextId⟩, Except.ok ())

/-- ensureUserExists: check, then create; a duplicate-key error on
create is ignored, any other insert error is thrown. -/
def ensureUserExists (f : Faults) (db : DB) (wallet : String) : DB × Except PgError Unit :=
  let address := toLowerCase wallet
  match usersSelect f db address with
  | some _ => (db, Except.ok ())
  | none =>
    match usersInsert f db address with
    | (db1, Except.error e) =>
      if e.code == "23505" then (db1, Except.ok ()) else (db1, Except.error e)
    | (db1, Except.ok _) => (db1, Except.ok ())

/-- points_ledger insert; the id is the generated serial key, and the
numeric metadata fields pass through the JavaScript falsy-to-null
coercion on their way into the bet_id and market_id columns. -/
def ledgerInsert (f : Faults) (db : DB) (a : String) (points : ℤ) (source : String)
    (md : Metadata) : DB × Except PgError Unit :=
  if f.ledgerInsertFault then (db, Except.error ⟨"storage"⟩)
  else (⟨db.users,
         db.ledger ++ [⟨db.nextId, a, points, source, orNull md.betId, orNull md.marketId, md⟩],
         db.nextId + 1⟩,
        Except.ok ())

/-- users select of total_points, step 3 of awardPoints. -/
def usersSelectRead (f : Faults) (db : DB) (a : String) : Option UserRow :=
  if f.userReadFault then none else findUser db a

/-- The row rewrite a users update performs: the matching row gets
the fresh total, every other row is untouched. -/
def creditFn (a : String) (t : ℤ) (v : UserRow) : UserRow :=
  if v.wallet_address == a then ⟨v.wallet_address, t⟩ else v

/-- users update of total_points for one wallet; the result of the
update call is ignored by the code, so a fault simply loses it. -/
def usersUpdate (f : Faults) (db : DB) (a : String) (t : ℤ) : DB :=
  if f.userUpdateFault then db
  else ⟨db.users.map (creditFn a t), db.ledger, db.nextId⟩

/-- Steps 2 and 3 of awardPoints, after the user row is ensured:
insert the ledger row, then read and rewrite the running total.  A
ledger error is a plain early return before any credit. -/
def awardAfterEnsure (f : Faults) (db1 : DB) (address : String) (points : ℤ) (source : String)
    (md : Metadata) : DB × Except PgError Unit :=
  match ledgerInsert f db1 address points source md with
  | (db2, Except.error _) => (db2, Except.ok ())
  | (db2, Except.ok _) =>
    match usersSelectRead f db2 address with
    | none => (db2, Except.ok ())
    | some u => (usersUpdate f db2 address (u.total_points + points), Except.ok ())

/-- The body of awardPoints: ensure the user row, then insert and
credit.  An ensureUserExists error propagates to the surrounding
catch. -/
def awardPointsBody (f : Faults) (db : DB) (wallet : String) (points : ℤ) (source : String)
    (md : Metadata) : DB × Except PgError Unit :=
  let address := toLowerCase wallet
  match ensureUserExists f db address with
  | (db1, Except.error e) => (db1, Except.error e)
  | (db1, Except.ok _) => awardAfterEnsure f db1 address points source md

/-- awardPoints wraps its body in try/catch: every error is logged
and swallowed, and the store is left as the body left it. -/
def awardPoints (f : Faults) (db : DB) (wallet : String) (points : ℤ) (source : String)
    (md : Metadata) : DB :=
  (awardPointsBody f db wallet points source md).1

/-- The decoded args of a raw log.  The indexed marketId is always
decoded; user and amount may be absent on a malformed log. -/
structure RawArgs where
  marketId : Nat
  user : Option String
  amount : Option Nat
deriving DecidableEq

/-- A raw log record as delivered by getLogs. -/
structure RawLog where
  args : Option RawArgs
  transactionHash : Option String
deriving DecidableEq

def POINTS_PER_DOLLAR : ℚ := 10
def WIN_MULTIPLIER : ℚ := 5

/-- BetPlaced handler: skip a log whose args, user or amount are
falsy, convert the amount at 6 fractional digits, floor amount times
ten, and award under source bet_volume.  The second component is
what the caller observes: the internal try/catch always resolves. -/
def handleBetPlaced (f : Faults) (db : DB) (log : RawLog) : DB × Except PgError Unit :=
  match log.args with
  | none => (db, Except.ok ())
  | some args =>
    match args.user, args.amount with
    | some user, some amount =>
      if user = "" ∨ amount = 0 then (db, Except.ok ())
      else
        let usdcAmount : ℚ := (amount : ℚ) / 1000000
        let basePoints : ℤ := Rat.floor (usdcAmount * POINTS_PER_DOLLAR)
        (awardPoints f db user basePoints "bet_volume"
           ⟨some args.marketId, some usdcAmount, none, log.transactionHash, none⟩,
         Except.ok ())
    | _, _ => (db, Except.ok ())

/-- points_ledger lookup of the latest bet_volume row for a wallet
and market: filtered on the three columns, ordered by id descending,
limited to one. -/
def findLatestBet (db : DB) (w : String) (m : Nat) : Option LedgerEntry :=
  (db.ledger.filter
      (fun e => e.wallet_address == w && e.market_id == some m && e.source == "bet_volume")).foldl
    (fun acc e =>
      match acc with
      | none => some e
      | some b => if b.id < e.id then some e else some b)
    none

/-- WinningsClaimed handler: skip falsy args (a zero payout is falsy,
so the explicit zero-payout early return of the code is subsumed),
look up the original bet, and when a bet row with a truthy betAmount
exists award floor of betAmount times ten times five under source
win_bonus; otherwise award nothing. -/
def handleWinningsClaimed (f : Faults) (db : DB) (log : RawLog) : DB × Except PgError Unit :=
  match log.args with
  | none => (db, Except.ok ())
  | some args =>
    match args.user, args.amount with
    | some user, some payout =>
      if user = "" ∨ payout = 0 then (db, Except.ok ())
      else
        match (if f.betLookupFault then none
               else findLatestBet db (toLowerCase user) args.marketId) with
        | none => (db, Except.ok ())
        | some r =>
          match r.metadata.betAmount with
          | none => (db, Except.ok ())
          | some originalBet =>
            if originalBet = 0 then (db, Except.ok ())
            else
              let winBonus : ℤ := Rat.floor (originalBet * POINTS_PER_DOLLAR * WIN_MULTIPLIER)
              (awardPoints f db user winBonus "win_bonus"
                 ⟨some args.marketId, none, some ((payout : ℚ) / 1000000),
                  log.transactionHash, none⟩,
               Except.ok ())
    | _, _ => (db, Except.ok ())

/-- A network error from the provider. -/
inductive RpcError where
  | transport
deriving DecidableEq

/-- One polling tick as seen from outside: the chain head and the two
getLogs answers, each of which may fail, plus the store faults of the
log handled at each position of the window (bets first). -/
structure TickEnv where
  currentBlock : Except RpcError Nat
  betLogs : Except RpcError (List RawLog)
  winLogs : Except RpcError (List RawLog)
  faults : Nat → Faults

/-- The listener state: the store and the in-memory cursor. -/
structure ListenerState where
  db : DB
  lastProcessedBlock : Nat
deriving DecidableEq

/-- Sequential for-await loop over the logs, position i onward,
aborting the window when a handler rejects. -/
def processList (h : Faults → DB → RawLog → DB × Except PgError Unit) (F : Nat → Faults) :
    Nat → DB → List RawLog → DB × Except PgError Unit
  | _, db, [] => (db, Except.ok ())
  | i, db, log :: rest =>
    match h (F i) db log with
    | (db1, Except.ok _) => processList h F (i + 1) db1 rest
    | (db1, Except.error e) => (db1, Except.error e)

/-- The same loop with the abort branch erased. -/
def processAll (h : Faults → DB → RawLog → DB × Except PgError Unit) (F : Nat → Faults) :
    Nat → DB → List RawLog → DB
  | _, db, [] => db
  | i, db, log :: rest => processAll h F (i + 1) (h (F i) db log).1 rest

/-- One body of the setInterval callback: read the head, skip when no
new block, fetch both log lists, process every BetPlaced then every
WinningsClaimed sequentially, and only then advance the cursor.  Any
throw lands in the catch, which keeps the cursor where it was while
keeping whatever the store already absorbed. -/
def tick (env : TickEnv) (s : ListenerState) : ListenerState :=
  match env.currentBlock with
  | Except.error _ => s
  | Except.ok currentBlock =>
    if currentBlock ≤ s.lastProcessedBlock then s
    else
      match env.betLogs with
      | Except.error _ => s
      | Except.ok betLogs =>
        match env.winLogs with
        | Except.error _ => s
        | Except.ok winLogs =>
          match processList handleBetPlaced env.faults 0 s.db betLogs with
          | (db1, Except.error _) => ⟨db1, s.lastProcessedBlock⟩
          | (db1, Except.ok _) =>
            match processList handleWinningsClaimed env.faults betLogs.length db1 winLogs with
            | (db2, Except.error _) => ⟨db2, s.lastProcessedBlock⟩
            | (db2, Except.ok _) => ⟨db2, currentBlock⟩

/-- A fault-free processed event, for reasoning over arbitrary
sequences of handled logs. -/
inductive Ev where
  | bet (log : RawLog)
  | win (log : RawLog)

def applyEv (db : DB) : Ev → DB
  | Ev.bet log => (handleBetPlaced noFaults db log).1
  | Ev.win log => (handleWinningsClaimed noFaults db log).1

def runEvs (db : DB) (evs : List Ev) : DB :=
  evs.foldl applyEv db

/-! ### Basic lemmas about the embedded store operations -/

theorem char_toLower_idem (c : Char) : c.toLower.toLower = c.toLower := by
  unfold Char.toLower
  by_cases h : c.toNat ≥ 65 ∧ c.toNat ≤ 90
  · rw [if_pos h]
    have hvalid : (c.toNat + 32).isValidChar := Or.inl (by omega)
    have hv : (Char.ofNat (c.toNat + 32)).toNat = c.toNat + 32 := by
      rw [Char.ofNat, dif_pos hvalid]
      rfl
    rw [if_neg]
    rw [hv]
    omega
  · rw [if_neg h, if_neg h]

theorem toLowerCase_idem (s : String) : toLowerCase (toLowerCase s) = toLowerCase s := by
  unfold toLowerCase
  rw [List.map_map]
  exact congrArg String.mk (List.map_congr_left (fun c _ => char_toLower_idem c))

theorem findRow_append (l1 l2 : List UserRow) (a : String) :
    findRow (l1 ++ l2) a =
      match findRow l1 a with
      | some u => some u
      | none => findRow l2 a := by
  unfold findRow
  induction l1 with
  | nil => simp
  | cons v l ih =>
    by_cases h : v.wallet_address == a <;>
      simp [List.find?_cons, h, ih]

theorem findRow_map_credit (l : List UserRow) (a t w) :
    findRow (l.map (creditFn a t)) w = (findRow l w).map (creditFn a t) := by
  unfold findRow
  induction l with
  | nil => rfl
  | cons v l ih =>
    have hwa : (creditFn a t v).wallet_address = v.wallet_address := by
      unfold creditFn
      by_cases h : v.wallet_address == a <;> simp [h]
    by_cases h : v.wallet_address == w <;>
      simp [List.find?_cons, hwa, h, ih]

theorem findRow_some_key {l : List UserRow} {w : String} {u : UserRow}
    (h : findRow l w = some u) : u.wallet_address = w := by
  have := List.find?_some h
  exact eq_of_beq this

theorem rowTotal_append_zero (us : List UserRow) (a w : String)
    (h : findRow us a = none) :
    rowTotal (us ++ [⟨a, 0⟩]) w = rowTotal us w := by
  unfold rowTotal
  rw [findRow_append]
  cases hf : findRow us w with
  | some u => rfl
  | none =>
    by_cases hw : w = a
    · subst hw
      rw [h] at hf
      simp [findRow, List.find?_cons]
    · have hba : (a == w) = false := by
        rw [beq_eq_false_iff_ne]
        exact fun hco => hw hco.symm
      simp [findRow, List.find?_cons, hba]

theorem findRow_append_self (us : List UserRow) (a : String)
    (h : findRow us a = none) :
    findRow (us ++ [⟨a, 0⟩]) a = some ⟨a, 0⟩ := by
  rw [findRow_append, h]
  simp [findRow, List.find?_cons]

theorem rowTotal_credit_self (us : List UserRow) (a : String) (t : ℤ) (u : UserRow)
    (h : findRow us a = some u) :
    rowTotal (us.map (creditFn a t)) a = t := by
  unfold rowTotal
  rw [findRow_map_credit, h]
  have hk := findRow_some_key h
  simp [creditFn, hk]

theorem rowTotal_credit_other (us : List UserRow) (a : String) (t : ℤ) (w : String)
    (hw : w ≠ a) :
    rowTotal (us.map (creditFn a t)) w = rowTotal us w := by
  unfold rowTotal
  rw [findRow_map_credit]
  cases h : findRow us w with
  | none => rfl
  | some u =>
    have hk := findRow_some_key h
    have hba : (u.wallet_address == a) = false := by
      rw [beq_eq_false_iff_ne, hk]
      exact hw
    simp [creditFn, hba]

theorem walletSum_append (L : List LedgerEntry) (e : LedgerEntry) (w : String) :
    walletSum (L ++ [e]) w
      = walletSum L w + (if e.wallet_address = w then e.points_earned else 0) := by
  unfold walletSum
  rw [List.filter_append]
  by_cases h : e.wallet_address = w
  · simp [h]
  · simp [h]

/-- Full characterization of ensureUserExists: a non-duplicate insert
error is thrown, an absent row is created, anything else is a no-op. -/
theorem ensureUser_eq (f : Faults) (db : DB) (wallet : String) :
    ensureUserExists f db wallet =
      if f.userInsertFault = true ∧ (f.userSelectFault = true ∨ findUser db (toLowerCase wallet) = none)
      then (db, Except.error ⟨"storage"⟩)
      else if findUser db (toLowerCase wallet) = none
      then (⟨db.users ++ [⟨toLowerCase wallet, 0⟩], db.ledger, db.nextId⟩, Except.ok ())
      else (db, Except.ok ()) := by
  unfold ensureUserExists usersSelect usersInsert
  by_cases hs : f.userSelectFault = true <;>
  by_cases hi : f.userInsertFault = true <;>
  cases hfind : findUser db (toLowerCase wallet) <;>
  simp [hs, hi, hfind]

theorem awardAfterEnsure_noFaults (db1 : DB) (a : String) (p : ℤ) (src : String)
    (md : Metadata) (u : UserRow) (hu : findRow db1.users a = some u) :
    awardAfterEnsure noFaults db1 a p src md =
      (⟨db1.users.map (creditFn a (u.total_points + p)),
        db1.ledger ++ [⟨db1.nextId, a, p, src, orNull md.betId, orNull md.marketId, md⟩],
        db1.nextId + 1⟩,
       Except.ok ()) := by
  unfold awardAfterEnsure ledgerInsert usersSelectRead usersUpdate findUser
  simp [noFaults, hu]

/-- Fault-free awardPoints: exactly one ledger row is appended, with
the given points, and exactly that number of points is credited to
the lower-cased wallet and to nobody else. -/
theorem awardPoints_noFaults_parts (db : DB) (wallet : String) (p : ℤ) (src : String)
    (md : Metadata) :
    (awardPoints noFaults db wallet p src md).ledger
        = db.ledger
            ++ [⟨db.nextId, toLowerCase wallet, p, src, orNull md.betId, orNull md.marketId, md⟩]
    ∧ (∀ w, totalPoints (awardPoints noFaults db wallet p src md) w
        = totalPoints db w + (if w = toLowerCase wallet then p else 0))
    ∧ (awardPoints noFaults db wallet p src md).nextId = db.nextId + 1 := by
  have h0 := ensureUser_eq noFaults db (toLowerCase wallet)
  rw [toLowerCase_idem] at h0
  have hins : noFaults.userInsertFault = false := rfl
  rw [hins] at h0
  simp only [Bool.false_eq_true, false_and, if_false] at h0
  cases hfind : findUser db (toLowerCase wallet) with
  | some u =>
    have hfr : findRow db.users (toLowerCase wallet) = some u := hfind
    rw [hfind, if_neg (Option.some_ne_none u)] at h0
    have hA : awardPoints noFaults db wallet p src md =
        ⟨db.users.map (creditFn (toLowerCase wallet) (u.total_points + p)),
         db.ledger
           ++ [⟨db.nextId, toLowerCase wallet, p, src, orNull md.betId, orNull md.marketId, md⟩],
         db.nextId + 1⟩ := by
      unfold awardPoints awardPointsBody
      simp only [h0]
      have hB := awardAfterEnsure_noFaults db (toLowerCase wallet) p src md u hfr
      rw [hB]
    rw [hA]
    refine ⟨rfl, ?_, rfl⟩
    intro w
    show rowTotal (db.users.map (creditFn (toLowerCase wallet) (u.total_points + p))) w
      = totalPoints db w + (if w = toLowerCase wallet then p else 0)
    by_cases hw : w = toLowerCase wallet
    · rw [if_pos hw, hw, rowTotal_credit_self db.users _ _ u hfr]
      show u.total_points + p = rowTotal db.users (toLowerCase wallet) + p
      unfold rowTotal
      rw [hfr]
    · rw [if_neg hw, rowTotal_credit_other db.users _ _ w hw]
      show rowTotal db.users w = rowTotal db.users w + 0
      omega
  | none =>
    have hfrn : findRow db.users (toLowerCase wallet) = none := hfind
    have hself := findRow_append_self db.users (toLowerCase wallet) hfrn
    rw [hfind, if_pos rfl] at h0
    have hA : awardPoints noFaults db wallet p src md =
        ⟨(db.users ++ [(⟨toLowerCase wallet, 0⟩ : UserRow)]).map
           (creditFn (toLowerCase wallet) (0 + p)),
         db.ledger
           ++ [⟨db.nextId, toLowerCase wallet, p, src, orNull md.betId, orNull md.marketId, md⟩],
         db.nextId + 1⟩ := by
      unfold awardPoints awardPointsBody
      simp only [h0]
      have hB := awardAfterEnsure_noFaults
        ⟨db.users ++ [(⟨toLowerCase wallet, 0⟩ : UserRow)], db.ledger, db.nextId⟩
        (toLowerCase wallet) p src md ⟨toLowerCase wallet, 0⟩ hself
      rw [hB]
    rw [hA]
    refine ⟨rfl, ?_, rfl⟩
    intro w
    show rowTotal ((db.users ++ [(⟨toLowerCase wallet, 0⟩ : UserRow)]).map
        (creditFn (toLowerCase wallet) (0 + p))) w
      = totalPoints db w + (if w = toLowerCase wallet then p else 0)
    by_cases hw : w = toLowerCase wallet
    · rw [if_pos hw, hw,
        rowTotal_credit_self _ _ _ (⟨toLowerCase wallet, 0⟩ : UserRow) hself]
      show 0 + p = rowTotal db.users (toLowerCase wallet) + p
      unfold rowTotal
      rw [hfrn]
    · rw [if_neg hw, rowTotal_credit_other _ _ _ w hw,
        rowTotal_append_zero db.users (toLowerCase wallet) w hfrn]
      show rowTotal db.users w = rowTotal db.users w + 0
      omega

theorem awardPoints_noFaults_ledgerSum (db : DB) (wallet : String) (p : ℤ) (src : String)
    (md : Metadata) (w : String) :
    ledgerSum (awardPoints noFaults db wallet p src md) w
      = ledgerSum db w + (if w = toLowerCase wallet then p else 0) := by
  unfold ledgerSum
  rw [(awardPoints_noFaults_parts db wallet p src md).1, walletSum_append]
  by_cases hw : w = toLowerCase wallet
  · simp [hw]
  · have hwx : ¬(toLowerCase wallet = w) := fun hco => hw hco.symm
    simp [hw, hwx]

theorem handleBetPlaced_ok (f : Faults) (db : DB) (log : RawLog) :
    (handleBetPlaced f db log).2 = Except.ok () := by
  unfold handleBetPlaced
  repeat' split
  all_goals rfl

theorem handleWinningsClaimed_ok (f : Faults) (db : DB) (log : RawLog) :
    (handleWinningsClaimed f db log).2 = Except.ok () := by
  unfold handleWinningsClaimed
  repeat' split
  all_goals rfl

theorem processList_eq_processAll
    (h : Faults → DB → RawLog → DB × Except PgError Unit)
    (hok : ∀ f db l, (h f db l).2 = Except.ok ())
    (F : Nat → Faults) :
    ∀ (ls : List RawLog) (i : Nat) (db : DB),
      processList h F i db ls = (processAll h F i db ls, Except.ok ()) := by
  intro ls
  induction ls with
  | nil => intro i db; rfl
  | cons l rest ih =>
    intro i db
    have hx := hok (F i) db l
    rcases hh : h (F i) db l with ⟨db1, r⟩
    rw [hh] at hx
    cases r with
    | error e => exact absurd hx (by simp)
    | ok u =>
      unfold processList processAll
      rw [hh]
      cases u
      exact ih (i + 1) db1

/-- The store state a fully processed window produces: every
BetPlaced log strictly first, then every WinningsClaimed log, each
handled in sequence. -/
def windowResult (F : Nat → Faults) (db : DB) (bets wins : List RawLog) : DB :=
  processAll handleWinningsClaimed F bets.length (processAll handleBetPlaced F 0 db bets) wins

theorem tick_cb_err (env : TickEnv) (s : ListenerState) (e : RpcError)
    (h : env.currentBlock = Except.error e) : tick env s = s := by
  unfold tick
  rw [h]

theorem tick_noop (env : TickEnv) (s : ListenerState) (head : Nat)
    (hcb : env.currentBlock = Except.ok head) (hle : head ≤ s.lastProcessedBlock) :
    tick env s = s := by
  unfold tick
  simp only [hcb]
  rw [if_pos hle]

theorem tick_bet_err (env : TickEnv) (s : ListenerState) (e : RpcError)
    (h : env.betLogs = Except.error e) : tick env s = s := by
  unfold tick
  cases hcb : env.currentBlock with
  | error e2 => rfl
  | ok head =>
    simp only [hcb]
    by_cases hle : head ≤ s.lastProcessedBlock
    · rw [if_pos hle]
    · rw [if_neg hle]
      simp only [h]

theorem tick_win_err (env : TickEnv) (s : ListenerState) (e : RpcError)
    (h : env.winLogs = Except.error e) : tick env s = s := by
  unfold tick
  cases hcb : env.currentBlock with
  | error e2 => rfl
  | ok head =>
    simp only [hcb]
    by_cases hle : head ≤ s.lastProcessedBlock
    · rw [if_pos hle]
    · rw [if_neg hle]
      cases hbl : env.betLogs with
      | error e3 => simp only [hbl]
      | ok bets => simp only [hbl, h]

theorem tick_advance (env : TickEnv) (s : ListenerState) (head : Nat)
    (bets wins : List RawLog)
    (hcb : env.currentBlock = Except.ok head) (hlt : s.lastProcessedBlock < head)
    (hb : env.betLogs = Except.ok bets) (hw : env.winLogs = Except.ok wins) :
    tick env s = ⟨windowResult env.faults s.db bets wins, head⟩ := by
  unfold tick
  simp only [hcb, hb, hw,
    processList_eq_processAll handleBetPlaced handleBetPlaced_ok env.faults,
    processList_eq_processAll handleWinningsClaimed handleWinningsClaimed_ok env.faults]
  rw [if_neg (by omega : ¬head ≤ s.lastProcessedBlock)]
  rfl

theorem tick_mono (env : TickEnv) (s : ListenerState) :
    s.lastProcessedBlock ≤ (tick env s).lastProcessedBlock := by
  cases hcb : env.currentBlock with
  | error e => rw [tick_cb_err env s e hcb]
  | ok head =>
    by_cases hle : head ≤ s.lastProcessedBlock
    · rw [tick_noop env s head hcb hle]
    · cases hbl : env.betLogs with
      | error e => rw [tick_bet_err env s e hbl]
      | ok bets =>
        cases hwl : env.winLogs with
        | error e => rw [tick_win_err env s e hwl]
        | ok wins =>
          rw [tick_advance env s head bets wins hcb (by omega) hbl hwl]
          show s.lastProcessedBlock ≤ head
          omega

/-- ensureUserExists never touches the ledger and never changes any
wallet total: it can only create a zero row or fail. -/
theorem ensureUser_obs (f : Faults) (db : DB) (wallet : String) :
    (ensureUserExists f db wallet).1.ledger = db.ledger
    ∧ (ensureUserExists f db wallet).1.nextId = db.nextId
    ∧ ∀ w, rowTotal (ensureUserExists f db wallet).1.users w = rowTotal db.users w := by
  rw [ensureUser_eq]
  by_cases h1 : f.userInsertFault = true
      ∧ (f.userSelectFault = true ∨ findUser db (toLowerCase wallet) = none)
  · rw [if_pos h1]
    exact ⟨rfl, rfl, fun w => rfl⟩
  · rw [if_neg h1]
    cases hfind : findUser db (toLowerCase wallet) with
    | some u =>
      rw [if_neg (Option.some_ne_none u)]
      exact ⟨rfl, rfl, fun w => rfl⟩
    | none =>
      rw [if_pos rfl]
      exact ⟨rfl, rfl, fun w => rowTotal_append_zero db.users (toLowerCase wallet) w hfind⟩

/-- Steps 2 and 3 of awardPoints keep every wallet total bounded by
its ledger sum, whatever storage faults strike, as long as the award
is nonnegative. -/
theorem awardAfterEnsure_le (f : Faults) (db1 : DB) (a : String) (p : ℤ) (src : String)
    (md : Metadata) (hp : 0 ≤ p)
    (hle : ∀ w, rowTotal db1.users w ≤ walletSum db1.ledger w) :
    ∀ w, rowTotal (awardAfterEnsure f db1 a p src md).1.users w
      ≤ walletSum (awardAfterEnsure f db1 a p src md).1.ledger w := by
  intro w
  unfold awardAfterEnsure ledgerInsert usersSelectRead usersUpdate findUser
  by_cases hf1 : f.ledgerInsertFault = true
  · simp only [hf1, if_true]
    exact hle w
  · simp only [hf1, Bool.false_eq_true, if_false]
    have hsum : walletSum (db1.ledger
        ++ [⟨db1.nextId, a, p, src, orNull md.betId, orNull md.marketId, md⟩]) w
        = walletSum db1.ledger w + (if a = w then p else 0) := by
      rw [walletSum_append]
    by_cases hf2 : f.userReadFault = true
    · simp only [hf2, if_true]
      rw [hsum]
      have := hle w
      by_cases hw : a = w <;> simp [hw] <;> omega
    · simp only [hf2, Bool.false_eq_true, if_false]
      cases hu : findRow db1.users a with
      | none =>
        simp only [hu]
        rw [hsum]
        have := hle w
        by_cases hw : a = w <;> simp [hw] <;> omega
      | some u =>
        simp only [hu]
        by_cases hf3 : f.userUpdateFault = true
        · simp only [hf3, if_true]
          rw [hsum]
          have := hle w
          by_cases hw : a = w <;> simp [hw] <;> omega
        · simp only [hf3, Bool.false_eq_true, if_false]
          by_cases hw : w = a
          · subst hw
            rw [rowTotal_credit_self db1.users w (u.total_points + p) u hu, hsum,
              if_pos rfl]
            have h1 : u.total_points = rowTotal db1.users w := by
              unfold rowTotal
              rw [hu]
            have := hle w
            omega
          · rw [rowTotal_credit_other db1.users a (u.total_points + p) w hw, hsum]
            have hwx : ¬(a = w) := fun hco => hw hco.symm
            rw [if_neg hwx]
            have := hle w
            omega

/-- When the ledger insert fails, awardPoints leaves the ledger and
every wallet total exactly as they were: nothing is credited. -/
theorem awardPoints_ledgerFault_noop (f : Faults) (db : DB) (wallet : String) (p : ℤ)
    (src : String) (md : Metadata) (hf : f.ledgerInsertFault = true) :
    (awardPoints f db wallet p src md).ledger = db.ledger
    ∧ ∀ w, totalPoints (awardPoints f db wallet p src md) w = totalPoints db w := by
  unfold awardPoints awardPointsBody
  rcases he : ensureUserExists f db (toLowerCase wallet) with ⟨db1, r⟩
  have hobs := ensureUser_obs f db (toLowerCase wallet)
  rw [he] at hobs
  cases r with
  | error e =>
    simp only [he]
    exact ⟨hobs.1, hobs.2.2⟩
  | ok u =>
    simp only [he]
    unfold awardAfterEnsure ledgerInsert
    simp only [hf, if_true]
    exact ⟨hobs.1, hobs.2.2⟩

/-- awardPoints keeps every wallet total bounded by its ledger sum
under arbitrary storage faults. -/
theorem awardPoints_le (f : Faults) (db : DB) (wallet : String) (p : ℤ) (src : String)
    (md : Metadata) (hp : 0 ≤ p)
    (hle : ∀ w, totalPoints db w ≤ ledgerSum db w) :
    ∀ w, totalPoints (awardPoints f db wallet p src md) w
      ≤ ledgerSum (awardPoints f db wallet p src md) w := by
  intro w
  unfold awardPoints awardPointsBody
  rcases he : ensureUserExists f db (toLowerCase wallet) with ⟨db1, r⟩
  have hobs := ensureUser_obs f db (toLowerCase wallet)
  rw [he] at hobs
  have hle1 : ∀ x, rowTotal db1.users x ≤ walletSum db1.ledger x := by
    intro x
    rw [hobs.1, hobs.2.2 x]
    exact hle x
  cases r with
  | error e =>
    simp only [he]
    exact hle1 w
  | ok u =>
    simp only [he]
    exact awardAfterEnsure_le f db1 (toLowerCase wallet) p src md hp hle1 w

/-- The derived-aggregate invariant: every wallet total equals the
sum of its ledger rows. -/
def Consistent (db : DB) : Prop :=
  ∀ w, totalPoints db w = ledgerSum db w

theorem awardPoints_consistent (db : DB) (wallet : String) (p : ℤ) (src : String)
    (md : Metadata) (h : Consistent db) :
    Consistent (awardPoints noFaults db wallet p src md) := by
  intro w
  rw [(awardPoints_noFaults_parts db wallet p src md).2.1 w,
    awardPoints_noFaults_ledgerSum db wallet p src md w, h w]

theorem handleBetPlaced_consistent (db : DB) (l : RawLog) (h : Consistent db) :
    Consistent (handleBetPlaced noFaults db l).1 := by
  unfold handleBetPlaced
  rcases l with ⟨args, tx⟩
  cases args with
  | none => exact h
  | some a =>
    rcases a with ⟨m, u, amt⟩
    cases u with
    | none => cases amt <;> exact h
    | some us =>
      cases amt with
      | none => exact h
      | some av =>
        by_cases hc : us = "" ∨ av = 0
        · simpa [hc] using h
        · simpa [hc] using awardPoints_consistent db us _ _ _ h

theorem handleWinningsClaimed_consistent (db : DB) (l : RawLog) (h : Consistent db) :
    Consistent (handleWinningsClaimed noFaults db l).1 := by
  unfold handleWinningsClaimed
  rcases l with ⟨args, tx⟩
  cases args with
  | none => exact h
  | some a =>
    rcases a with ⟨m, u, amt⟩
    cases u with
    | none => cases amt <;> exact h
    | some us =>
      cases amt with
      | none => exact h
      | some av =>
        by_cases hc : us = "" ∨ av = 0
        · simpa [hc] using h
        · cases hlb : (if noFaults.betLookupFault = true then none
              else findLatestBet db (toLowerCase us) m) with
          | none => simpa [hc, hlb] using h
          | some r =>
            cases hba : r.metadata.betAmount with
            | none => simpa [hc, hlb, hba] using h
            | some ob =>
              by_cases hz : ob = 0
              · simpa [hc, hlb, hba, hz] using h
              · simpa [hc, hlb, hba, hz] using
                  awardPoints_consistent db us _ _ _ h

theorem runEvs_consistent (evs : List Ev) :
    ∀ db : DB, Consistent db → Consistent (runEvs db evs) := by
  induction evs with
  | nil => exact fun db h => h
  | cons e rest ih =>
    intro db h
    cases e with
    | bet l => exact ih _ (handleBetPlaced_consistent db l h)
    | win l => exact ih _ (handleWinningsClaimed_consistent db l h)

theorem processList_cons_ok (h : Faults → DB → RawLog → DB × Except PgError Unit)
    (F : Nat → Faults) (i : Nat) (db : DB) (log : RawLog) (rest : List RawLog) (db1 : DB)
    (hh : h (F i) db log = (db1, Except.ok ())) :
    processList h F i db (log :: rest) = processList h F (i + 1) db1 rest := by
  conv_lhs => unfold processList
  rw [hh]

theorem handleBetPlaced_award (f : Faults) (db : DB) (m : Nat) (u : String) (amt : Nat)
    (tx : Option String) (hu : u ≠ "") (ha : amt ≠ 0) :
    handleBetPlaced f db ⟨some ⟨m, some u, some amt⟩, tx⟩
      = (awardPoints f db u (Rat.floor ((amt : ℚ) / 1000000 * POINTS_PER_DOLLAR)) "bet_volume"
          ⟨some m, some ((amt : ℚ) / 1000000), none, tx, none⟩, Except.ok ()) := by
  have hc : ¬(u = "" ∨ amt = 0) := by
    intro hco
    rcases hco with hco | hco
    · exact hu hco
    · exact ha hco
  unfold handleBetPlaced
  simp [hc]

theorem handleWinningsClaimed_award (f : Faults) (db : DB) (m : Nat) (u : String)
    (payout : Nat) (tx : Option String) (hu : u ≠ "") (hp : payout ≠ 0)
    (e : LedgerEntry) (a : ℚ)
    (hl : (if f.betLookupFault = true then none
        else findLatestBet db (toLowerCase u) m) = some e)
    (hba : e.metadata.betAmount = some a) (ha : a ≠ 0) :
    handleWinningsClaimed f db ⟨some ⟨m, some u, some payout⟩, tx⟩
      = (awardPoints f db u (Rat.floor (a * POINTS_PER_DOLLAR * WIN_MULTIPLIER)) "win_bonus"
          ⟨some m, none, some ((payout : ℚ) / 1000000), tx, none⟩, Except.ok ()) := by
  have hc : ¬(u = "" ∨ payout = 0) := by
    intro hco
    rcases hco with hco | hco
    · exact hu hco
    · exact hp hco
  unfold handleWinningsClaimed
  simp [hc, hl, hba, ha]

theorem handleWinningsClaimed_nolookup (f : Faults) (db : DB) (m : Nat) (u : String)
    (payout : Nat) (tx : Option String)
    (hl : (if f.betLookupFault = true then none
        else findLatestBet db (toLowerCase u) m) = none) :
    handleWinningsClaimed f db ⟨some ⟨m, some u, some payout⟩, tx⟩ = (db, Except.ok ()) := by
  unfold handleWinningsClaimed
  by_cases hc : u = "" ∨ payout = 0
  · simp [hc]
  · simp [hc, hl]

/-! ### The claims -/

def replayBetLog : RawLog := ⟨some ⟨1, some "a", some 1000000⟩, some "0xabc"⟩

def windowOnce : DB := windowResult (fun _ => noFaults) emptyDB [replayBetLog] []

def windowTwice : DB := windowResult (fun _ => noFaults) windowOnce [replayBetLog] []

/-- C1: refuted on the code.  Processing the identical one-bet window
(1 USDC bet by wallet a) a second time, as a retry does, is not a
no-op: the points_ledger carries no event-identity key (its only key
is the generated serial id), so the replayed insert succeeds as a
fresh row and the handler credits the 10 points again — the aggregate
is 10 after one pass and 20 after the replay, with two identical
ledger rows. -/
theorem replay_double_awards :
    totalPoints windowOnce "a" = 10
    ∧ totalPoints windowTwice "a" = 20
    ∧ windowTwice.ledger.length = 2 := by
  with_unfolding_all decide

/-- C2: for every wallet, after any fault-free sequence of processed
bet and win events, the wallet aggregate total equals the sum of
points_earned over the ledger rows of that wallet. -/
theorem aggregate_total_matches_ledger (db : DB) (evs : List Ev)
    (h : ∀ w, totalPoints db w = ledgerSum db w) :
    ∀ w, totalPoints (runEvs db evs) w = ledgerSum (runEvs db evs) w :=
  runEvs_consistent evs db h

theorem aggregate_total_matches_ledger_witness :
    totalPoints (runEvs emptyDB
        [Ev.bet ⟨some ⟨1, some "a", some 12500000⟩, some "0xb"⟩,
         Ev.win ⟨some ⟨1, some "a", some 25000000⟩, some "0xw"⟩]) "a"
      = ledgerSum (runEvs emptyDB
        [Ev.bet ⟨some ⟨1, some "a", some 12500000⟩, some "0xb"⟩,
         Ev.win ⟨some ⟨1, some "a", some 25000000⟩, some "0xw"⟩]) "a" :=
  aggregate_total_matches_ledger emptyDB
    [Ev.bet ⟨some ⟨1, some "a", some 12500000⟩, some "0xb"⟩,
     Ev.win ⟨some ⟨1, some "a", some 25000000⟩, some "0xw"⟩]
    (fun _ => rfl) "a"

/-- C3: per polling tick the cursor never regresses; any failed fetch
(head, bet logs or win logs) leaves the whole state untouched; and
whenever the cursor moves at all, every fetch succeeded, the head was
strictly beyond the cursor, the full window was processed
sequentially, and the cursor lands exactly on the head. -/
theorem cursor_advance_semantics (env : TickEnv) (s : ListenerState) :
    s.lastProcessedBlock ≤ (tick env s).lastProcessedBlock
    ∧ (∀ e, env.currentBlock = Except.error e → tick env s = s)
    ∧ (∀ e, env.betLogs = Except.error e → tick env s = s)
    ∧ (∀ e, env.winLogs = Except.error e → tick env s = s)
    ∧ ((tick env s).lastProcessedBlock ≠ s.lastProcessedBlock →
        ∃ head bets wins,
          env.currentBlock = Except.ok head ∧ env.betLogs = Except.ok bets
          ∧ env.winLogs = Except.ok wins ∧ s.lastProcessedBlock < head
          ∧ tick env s = ⟨windowResult env.faults s.db bets wins, head⟩) := by
  refine ⟨tick_mono env s, fun e he => tick_cb_err env s e he,
    fun e he => tick_bet_err env s e he, fun e he => tick_win_err env s e he, ?_⟩
  intro hne
  cases hcb : env.currentBlock with
  | error e =>
    exact absurd (congrArg ListenerState.lastProcessedBlock (tick_cb_err env s e hcb)) hne
  | ok head =>
    by_cases hle : head ≤ s.lastProcessedBlock
    · exact absurd
        (congrArg ListenerState.lastProcessedBlock (tick_noop env s head hcb hle)) hne
    · cases hbl : env.betLogs with
      | error e =>
        exact absurd
          (congrArg ListenerState.lastProcessedBlock (tick_bet_err env s e hbl)) hne
      | ok bets =>
        cases hwl : env.winLogs with
        | error e =>
          exact absurd
            (congrArg ListenerState.lastProcessedBlock (tick_win_err env s e hwl)) hne
        | ok wins =>
          exact ⟨head, bets, wins, rfl, rfl, rfl, by omega,
            tick_advance env s head bets wins hcb (by omega) hbl hwl⟩

theorem cursor_advance_semantics_witness :
    (tick ⟨Except.ok 5, Except.ok [], Except.ok [], fun _ => noFaults⟩
      ⟨emptyDB, 3⟩).lastProcessedBlock = 5 := by
  have h := cursor_advance_semantics
    ⟨Except.ok 5, Except.ok [], Except.ok [], fun _ => noFaults⟩ ⟨emptyDB, 3⟩
  rcases h.2.2.2.2 (by with_unfolding_all decide) with
    ⟨head, bets, wins, hcb, hb, hw, hlt, heq⟩
  rw [heq]
  exact (Except.ok.inj hcb).symm

/-- C4: for a WinningsClaimed event with nonzero payout, when the
descending-by-id ledger lookup finds a prior bet_volume row whose
metadata carries a truthy bet amount a, exactly one win_bonus row of
floor(a * 50) points is appended and the same amount is credited —
computed from the original bet amount, not the payout; when the
lookup finds no row, the handler changes nothing and raises no
error. -/
theorem win_bonus_from_original_bet (db : DB) (m : Nat) (u : String) (payout : Nat)
    (tx : Option String) (hu : u ≠ "") (hp : payout ≠ 0) :
    (∀ e a, findLatestBet db (toLowerCase u) m = some e →
      e.metadata.betAmount = some a → a ≠ 0 →
      (handleWinningsClaimed noFaults db ⟨some ⟨m, some u, some payout⟩, tx⟩).1.ledger
        = db.ledger ++ [⟨db.nextId, toLowerCase u, Rat.floor (a * 50), "win_bonus", none,
            orNull (some m), ⟨some m, none, some ((payout : ℚ) / 1000000), tx, none⟩⟩]
      ∧ ∀ w, totalPoints
            (handleWinningsClaimed noFaults db ⟨some ⟨m, some u, some payout⟩, tx⟩).1 w
          = totalPoints db w + (if w = toLowerCase u then Rat.floor (a * 50) else 0))
    ∧ (findLatestBet db (toLowerCase u) m = none →
        handleWinningsClaimed noFaults db ⟨some ⟨m, some u, some payout⟩, tx⟩
          = (db, Except.ok ())) := by
  constructor
  · intro e a hl hba ha
    have hsc : (if noFaults.betLookupFault = true then none
        else findLatestBet db (toLowerCase u) m) = some e := by
      rw [if_neg (by decide)]
      exact hl
    rw [handleWinningsClaimed_award noFaults db m u payout tx hu hp e a hsc hba ha]
    have hmul : a * POINTS_PER_DOLLAR * WIN_MULTIPLIER = a * 50 := by
      unfold POINTS_PER_DOLLAR WIN_MULTIPLIER
      ring
    rw [hmul]
    have h := awardPoints_noFaults_parts db u (Rat.floor (a * 50)) "win_bonus"
      ⟨some m, none, some ((payout : ℚ) / 1000000), tx, none⟩
    exact ⟨h.1, fun w => h.2.1 w⟩
  · intro hn
    refine handleWinningsClaimed_nolookup noFaults db m u payout tx ?_
    rw [if_neg (by decide)]
    exact hn

def dbAfterBet : DB :=
  (handleBetPlaced noFaults emptyDB ⟨some ⟨1, some "a", some 12500000⟩, some "0xb"⟩).1

def betEntry1 : LedgerEntry :=
  ⟨1, "a", 125, "bet_volume", none, some 1,
   ⟨some 1, some ((12500000 : ℚ) / 1000000), none, some "0xb", none⟩⟩

theorem win_bonus_from_original_bet_witness :
    totalPoints (handleWinningsClaimed noFaults dbAfterBet
      ⟨some ⟨1, some "a", some 25000000⟩, some "0xw"⟩).1 "a" = 750 := by
  have h := (win_bonus_from_original_bet dbAfterBet 1 "a" 25000000 (some "0xw")
      (by decide) (by decide)).1 betEntry1 ((12500000 : ℚ) / 1000000)
      (by with_unfolding_all decide) (by with_unfolding_all decide)
      (by with_unfolding_all decide)
  rw [h.2 "a"]
  with_unfolding_all decide

/-- C5: for a valid BetPlaced event whose raw uint256 amount a is
converted at 6 fractional digits, exactly one bet_volume ledger row
of floor(a / 10^6 * 10) points is appended and the same amount is
credited to the lower-cased wallet. -/
theorem bet_points_floor (db : DB) (m : Nat) (u : String) (amt : Nat) (tx : Option String)
    (hu : u ≠ "") (ha : amt ≠ 0) :
    (handleBetPlaced noFaults db ⟨some ⟨m, some u, some amt⟩, tx⟩).1.ledger
      = db.ledger ++ [⟨db.nextId, toLowerCase u, Rat.floor ((amt : ℚ) / 1000000 * 10),
          "bet_volume", none, orNull (some m),
          ⟨some m, some ((amt : ℚ) / 1000000), none, tx, none⟩⟩]
    ∧ ∀ w, totalPoints (handleBetPlaced noFaults db ⟨some ⟨m, some u, some amt⟩, tx⟩).1 w
        = totalPoints db w
          + (if w = toLowerCase u then Rat.floor ((amt : ℚ) / 1000000 * 10) else 0) := by
  rw [handleBetPlaced_award noFaults db m u amt tx hu ha]
  have h := awardPoints_noFaults_parts db u (Rat.floor ((amt : ℚ) / 1000000 * 10))
    "bet_volume" ⟨some m, some ((amt : ℚ) / 1000000), none, tx, none⟩
  exact ⟨h.1, fun w => h.2.1 w⟩

theorem bet_points_floor_witness :
    totalPoints (handleBetPlaced noFaults emptyDB
      ⟨some ⟨1, some "a", some 12500000⟩, some "0xb"⟩).1 "a" = 125 := by
  have h := bet_points_floor emptyDB 1 "a" 12500000 (some "0xb") (by decide) (by decide)
  rw [h.2 "a"]
  with_unfolding_all decide

/-- C6: a WinningsClaimed event whose payout is exactly zero produces
no award and no error, whatever the user field and whatever storage
faults are pending: a zero amount is falsy and the log is skipped
before any lookup. -/
theorem zero_payout_no_award (f : Faults) (db : DB) (m : Nat) (u : Option String)
    (tx : Option String) :
    handleWinningsClaimed f db ⟨some ⟨m, u, some 0⟩, tx⟩ = (db, Except.ok ()) := by
  unfold handleWinningsClaimed
  cases u with
  | none => rfl
  | some us => simp

/-- C7: per polling tick, a head at or below the cursor is a no-op,
and otherwise the new state is the strictly sequential left fold of
the BetPlaced handler over all bet logs followed by the
WinningsClaimed handler over all win logs of the window. -/
theorem window_bets_before_wins (env : TickEnv) (s : ListenerState) (head : Nat)
    (bets wins : List RawLog) (hcb : env.currentBlock = Except.ok head) :
    (head ≤ s.lastProcessedBlock → tick env s = s)
    ∧ (s.lastProcessedBlock < head → env.betLogs = Except.ok bets →
        env.winLogs = Except.ok wins →
        tick env s = ⟨processAll handleWinningsClaimed env.faults bets.length
            (processAll handleBetPlaced env.faults 0 s.db bets) wins, head⟩) :=
  ⟨fun hle => tick_noop env s head hcb hle,
   fun hlt hb hw => tick_advance env s head bets wins hcb hlt hb hw⟩

theorem window_bets_before_wins_witness :
    totalPoints (tick
      ⟨Except.ok 5, Except.ok [⟨some ⟨1, some "a", some 12500000⟩, some "0xb"⟩],
       Except.ok [⟨some ⟨1, some "a", some 25000000⟩, some "0xw"⟩], fun _ => noFaults⟩
      ⟨emptyDB, 3⟩).db "a" = 750 := by
  have h := (window_bets_before_wins
      ⟨Except.ok 5, Except.ok [⟨some ⟨1, some "a", some 12500000⟩, some "0xb"⟩],
       Except.ok [⟨some ⟨1, some "a", some 25000000⟩, some "0xw"⟩], fun _ => noFaults⟩
      ⟨emptyDB, 3⟩ 5 [⟨some ⟨1, some "a", some 12500000⟩, some "0xb"⟩]
      [⟨some ⟨1, some "a", some 25000000⟩, some "0xw"⟩] rfl).2
      (by decide) rfl rfl
  rw [h]
  with_unfolding_all decide

/-- C8: a raw log with missing args, missing user or missing amount
is skipped by both handlers without touching the store and without an
error, whatever storage faults are pending, and the rest of the
window is processed exactly as if the malformed log were absent. -/
theorem malformed_log_skipped (f : Faults) (db : DB) (log : RawLog) (rest : List RawLog)
    (i : Nat)
    (h : log.args = none
      ∨ ∃ args, log.args = some args ∧ (args.user = none ∨ args.amount = none)) :
    handleBetPlaced f db log = (db, Except.ok ())
    ∧ handleWinningsClaimed f db log = (db, Except.ok ())
    ∧ processList handleBetPlaced (fun _ => f) i db (log :: rest)
        = processList handleBetPlaced (fun _ => f) (i + 1) db rest
    ∧ processList handleWinningsClaimed (fun _ => f) i db (log :: rest)
        = processList handleWinningsClaimed (fun _ => f) (i + 1) db rest := by
  have hb : handleBetPlaced f db log = (db, Except.ok ()) := by
    unfold handleBetPlaced
    rcases log with ⟨args, tx⟩
    rcases h with hh | ⟨ar, har, hx⟩
    · have : args = none := hh
      subst this
      rfl
    · have : args = some ar := har
      subst this
      rcases ar with ⟨mm, uu, aa⟩
      rcases hx with hx | hx
      · have : uu = none := hx
        subst this
        cases aa <;> rfl
      · have : aa = none := hx
        subst this
        cases uu <;> rfl
  have hw : handleWinningsClaimed f db log = (db, Except.ok ()) := by
    unfold handleWinningsClaimed
    rcases log with ⟨args, tx⟩
    rcases h with hh | ⟨ar, har, hx⟩
    · have : args = none := hh
      subst this
      rfl
    · have : args = some ar := har
      subst this
      rcases ar with ⟨mm, uu, aa⟩
      rcases hx with hx | hx
      · have : uu = none := hx
        subst this
        cases aa <;> rfl
      · have : aa = none := hx
        subst this
        cases uu <;> rfl
  exact ⟨hb, hw, processList_cons_ok handleBetPlaced (fun _ => f) i db log rest db hb,
    processList_cons_ok handleWinningsClaimed (fun _ => f) i db log rest db hw⟩

theorem malformed_log_skipped_witness :
    handleBetPlaced noFaults emptyDB ⟨some ⟨1, none, some 5⟩, none⟩
      = (emptyDB, Except.ok ()) :=
  (malformed_log_skipped noFaults emptyDB ⟨some ⟨1, none, some 5⟩, none⟩ [] 0
    (Or.inr ⟨⟨1, none, some 5⟩, rfl, Or.inl rfl⟩)).1

/-- C9: the ledger append strictly precedes the aggregate credit: a
failed ledger insert leaves both the ledger and every wallet total
exactly unchanged, and under arbitrary storage faults every wallet
total stays bounded by the sum of its ledger rows, so the ledger is
always at least as up to date as the aggregate. -/
theorem ledger_write_precedes_credit (f : Faults) (db : DB) (wallet src : String) (p : ℤ)
    (md : Metadata) (hp : 0 ≤ p) (hle : ∀ w, totalPoints db w ≤ ledgerSum db w) :
    (f.ledgerInsertFault = true →
      (awardPoints f db wallet p src md).ledger = db.ledger
      ∧ ∀ w, totalPoints (awardPoints f db wallet p src md) w = totalPoints db w)
    ∧ ∀ w, totalPoints (awardPoints f db wallet p src md) w
        ≤ ledgerSum (awardPoints f db wallet p src md) w :=
  ⟨fun hf => awardPoints_ledgerFault_noop f db wallet p src md hf,
   awardPoints_le f db wallet p src md hp hle⟩

def faultyLedger : Faults := ⟨false, false, true, false, false, false⟩

theorem ledger_write_precedes_credit_witness :
    totalPoints (awardPoints faultyLedger emptyDB "a" 5 "bet_volume"
      ⟨none, none, none, none, none⟩) "a" = 0 := by
  have h := ledger_write_precedes_credit faultyLedger emptyDB "a" "bet_volume" 5
    ⟨none, none, none, none, none⟩ (by decide) (fun w => le_refl 0)
  rw [(h.1 rfl).2 "a"]
  with_unfolding_all decide

/-- C10: the handlers resolve with a success for every log — all
storage and policy failures are caught inside them — so a failed
award never reaches the polling loop, and the cursor still advances
to the head at the end of the window whatever faults struck. -/
theorem award_errors_contained (env : TickEnv) (s : ListenerState) (head : Nat)
    (bets wins : List RawLog)
    (hcb : env.currentBlock = Except.ok head) (hb : env.betLogs = Except.ok bets)
    (hw : env.winLogs = Except.ok wins) (hlt : s.lastProcessedBlock < head) :
    (∀ (f : Faults) (db : DB) (l : RawLog),
      (handleBetPlaced f db l).2 = Except.ok ()
      ∧ (handleWinningsClaimed f db l).2 = Except.ok ())
    ∧ (tick env s).lastProcessedBlock = head := by
  refine ⟨fun f db l => ⟨handleBetPlaced_ok f db l, handleWinningsClaimed_ok f db l⟩, ?_⟩
  rw [tick_advance env s head bets wins hcb hlt hb hw]

theorem award_errors_contained_witness :
    (tick ⟨Except.ok 9, Except.ok [⟨some ⟨2, some "b", some 1000000⟩, none⟩],
      Except.ok [], fun _ => faultyLedger⟩ ⟨emptyDB, 4⟩).lastProcessedBlock = 9 :=
  (award_errors_contained
    ⟨Except.ok 9, Except.ok [⟨some ⟨2, some "b", some 1000000⟩, none⟩],
     Except.ok [], fun _ => faultyLedger⟩ ⟨emptyDB, 4⟩ 9
    [⟨some ⟨2, some "b", some 1000000⟩, none⟩] [] rfl rfl rfl (by decide)).2

end TrenchyBet
